import Mathlib

/-!
Shallow embedding of the Market_weather feature/signal core
(src/mw/scoring/tradability.py, src/mw/features/entropy.py,
src/mw/features/ftle.py, src/mw/features/scaling.py,
src/mw/features/smoothing.py).

Series are modelled as lists of `Option ℚ` (`none` is the NaN
missing-value sentinel; Python float comparisons against NaN evaluate
false, which is modelled explicitly).  Python exceptions are modelled
with `Except String`.  Transcendental tails (logarithms, square roots,
medians of real slopes) live in `ℝ`; everything a decision procedure
must evaluate (ordinal patterns, counters, neighbour selection,
min-max scaling, the state machine itself) is computable over `ℚ`/`ℕ`.
-/

/-! ## Hysteresis state classifier (src/mw/scoring/tradability.py) -/

/-- The three classifier states emitted by `state_machine`. -/
inductive TState where
  | RED
  | YELLOW
  | GREEN
  deriving DecidableEq

/-- Threshold and hysteresis configuration of `state_machine`
(the merged `thresholds` / `hysteresis` dictionaries). -/
structure SMParams where
  tau_y : ℚ
  tau_g : ℚ
  k_up : ℕ
  k_down : ℕ
  min_flip_spacing : ℤ
  deriving DecidableEq

/-- A rational in lowest terms, in constructor form so that kernel
reduction (hence `decide`) can evaluate comparisons on it. -/
def mkq (n : ℤ) (d : ℕ) (hd : d ≠ 0) (hc : n.natAbs.Coprime d) : ℚ :=
  ⟨n, d, hd, hc⟩

/-- `DEFAULT_THRESH` merged with `DEFAULT_HYST` from the source:
`tau_y = 0.45 = 9/20`, `tau_g = 0.65 = 13/20`. -/
def DEFAULT_THRESH_HYST : SMParams :=
  { tau_y := mkq 9 20 (by norm_num) (by norm_num),
    tau_g := mkq 13 20 (by norm_num) (by norm_num),
    k_up := 2, k_down := 1, min_flip_spacing := 3 }

/-- Python `score >= t` where `score` may be NaN: a comparison against
the NaN sentinel evaluates false. -/
def pyGE (score : Option ℚ) (t : ℚ) : Bool :=
  match score with
  | none => false
  | some s => decide (t ≤ s)

/-- Python `score <= t` where `score` may be NaN: a comparison against
the NaN sentinel evaluates false. -/
def pyLE (score : Option ℚ) (t : ℚ) : Bool :=
  match score with
  | none => false
  | some s => decide (s ≤ t)

/-- The run-counter update at the top of the `state_machine` loop body:
`if score >= tau_g: up+1, 0 elif score <= tau_y: 0, down+1 else: 0, 0`. -/
def update_counters (p : SMParams) (score : Option ℚ) (u d : ℕ) : ℕ × ℕ :=
  if pyGE score p.tau_g then (u + 1, 0)
  else if pyLE score p.tau_y then (0, d + 1)
  else (0, 0)

/-- The desired state computed from the updated run counters:
GREEN if `up_count >= k_up`, else RED if `down_count >= k_down`,
else YELLOW. -/
def desired_state (p : SMParams) (u d : ℕ) : TState :=
  if p.k_up ≤ u then .GREEN
  else if p.k_down ≤ d then .RED
  else .YELLOW

/-- Mutable loop state of `state_machine`: current state, index of the
last accepted flip, and the two run counters. -/
structure SMState where
  current : TState
  last_flip : ℤ
  up_count : ℕ
  down_count : ℕ
  deriving DecidableEq

/-- The flip-acceptance test at position `i`:
`desired_state != current_state and i - last_flip_idx >= min_flip_spacing`. -/
def flip_accepted (p : SMParams) (i : ℤ) (st : SMState) (score : Option ℚ) : Bool :=
  let ud := update_counters p score st.up_count st.down_count
  decide (desired_state p ud.1 ud.2 ≠ st.current) &&
    decide (p.min_flip_spacing ≤ i - st.last_flip)

/-- One iteration of the `state_machine` loop body at position `i`. -/
def sm_step (p : SMParams) (i : ℤ) (st : SMState) (score : Option ℚ) : SMState :=
  let ud := update_counters p score st.up_count st.down_count
  if flip_accepted p i st score then
    { current := desired_state p ud.1 ud.2, last_flip := i,
      up_count := 0, down_count := 0 }
  else
    { current := st.current, last_flip := st.last_flip,
      up_count := ud.1, down_count := ud.2 }

/-- The `state_machine` loop: emits the post-step current state at every
position. -/
def sm_run (p : SMParams) : ℤ → SMState → List (Option ℚ) → List TState
  | _, _, [] => []
  | i, st, sc :: rest =>
    let st' := sm_step p i st sc
    st'.current :: sm_run p (i + 1) st' rest

/-- Initial loop state: `current_state = prev_state or "YELLOW"`,
`last_flip_idx = -min_flip_spacing`, both counters zero. -/
def init_state (prev_state : Option TState) (p : SMParams) : SMState :=
  { current := prev_state.getD .YELLOW, last_flip := -p.min_flip_spacing,
    up_count := 0, down_count := 0 }

/-- `state_machine(scores, prev_state, thresholds, hysteresis, timestamps)`.
The `timestamps` argument is accepted but never read by the source. -/
def state_machine (scores : List (Option ℚ)) (prev_state : Option TState)
    (p : SMParams) (timestamps : Option (List ℤ)) : List TState :=
  sm_run p 0 (init_state prev_state p) scores

/-- Positions at which the `state_machine` loop accepts a transition. -/
def sm_flips (p : SMParams) : ℤ → SMState → List (Option ℚ) → List ℤ
  | _, _, [] => []
  | i, st, sc :: rest =>
    (if flip_accepted p i st sc then [i] else []) ++
      sm_flips p (i + 1) (sm_step p i st sc) rest

/-- Accepted-transition positions of a full `state_machine` run. -/
def state_machine_flips (scores : List (Option ℚ)) (prev_state : Option TState)
    (p : SMParams) : List ℤ :=
  sm_flips p 0 (init_state prev_state p) scores

/-- The score 0.5 = 1/2 in constructor form. -/
def q05 : ℚ := mkq 1 2 (by norm_num) (by norm_num)

/-- The score 0.7 = 7/10 in constructor form. -/
def q07 : ℚ := mkq 7 10 (by norm_num) (by norm_num)

/-- The score 0.3 = 3/10 in constructor form. -/
def q03 : ℚ := mkq 3 10 (by norm_num) (by norm_num)

/-- The score sequence of the spec's worked classifier example:
`[0.5, 0.7, 0.7, 0.3, 0.3, 0.3, 0.7, 0.7, 0.7]`. -/
def example_scores : List (Option ℚ) :=
  [q05, q07, q07, q03, q03, q03, q07, q07, q07].map some

/-! ### Lemmas about accepted flips -/

/-- Every flip recorded from loop position `i` onwards lies at or after `i`
and at least `min_flip_spacing` after the incoming `last_flip`. -/
theorem sm_flips_lower_bound (p : SMParams) :
    ∀ (scores : List (Option ℚ)) (i : ℤ) (st : SMState) (f : ℤ),
      f ∈ sm_flips p i st scores →
      i ≤ f ∧ st.last_flip + p.min_flip_spacing ≤ f := by
  intro scores
  induction scores with
  | nil => intro i st f hf; simp [sm_flips] at hf
  | cons sc rest ih =>
    intro i st f hf
    rw [sm_flips, List.mem_append] at hf
    by_cases hacc : flip_accepted p i st sc
    · have hspace : p.min_flip_spacing ≤ i - st.last_flip := by
        have h := hacc
        rw [flip_accepted, Bool.and_eq_true, decide_eq_true_iff,
          decide_eq_true_iff] at h
        exact h.2
      rcases hf with h1 | h2
      · rw [if_pos hacc] at h1
        simp at h1
        subst h1
        exact ⟨le_refl _, by omega⟩
      · have hstep : (sm_step p i st sc).last_flip = i := by
          rw [sm_step]; simp [hacc]
        have h := ih (i + 1) (sm_step p i st sc) f h2
        rw [hstep] at h
        exact ⟨by omega, by omega⟩
    · rcases hf with h1 | h2
      · rw [if_neg hacc] at h1
        simp at h1
      · have hstep : (sm_step p i st sc).last_flip = st.last_flip := by
          rw [sm_step]; simp [hacc]
        have h := ih (i + 1) (sm_step p i st sc) f h2
        rw [hstep] at h
        exact ⟨by omega, h.2⟩

/-- The recorded flips are strictly increasing and consecutive ones (hence
all ordered pairs) are at least `min_flip_spacing` apart. -/
theorem sm_flips_pairwise (p : SMParams) :
    ∀ (scores : List (Option ℚ)) (i : ℤ) (st : SMState),
      List.Pairwise (fun a b => a < b ∧ a + p.min_flip_spacing ≤ b)
        (sm_flips p i st scores) := by
  intro scores
  induction scores with
  | nil => intro i st; simp [sm_flips]
  | cons sc rest ih =>
    intro i st
    rw [sm_flips]
    by_cases hacc : flip_accepted p i st sc
    · rw [if_pos hacc]
      have hstep : (sm_step p i st sc).last_flip = i := by
        rw [sm_step]; simp [hacc]
      refine List.Pairwise.cons ?_ (ih (i + 1) (sm_step p i st sc))
      intro b hb
      have h := sm_flips_lower_bound p rest (i + 1) (sm_step p i st sc) b hb
      rw [hstep] at h
      exact ⟨by omega, h.2⟩
    · rw [if_neg hacc]
      simpa using ih (i + 1) (sm_step p i st sc)

/-- Pairwise on a list of integers transfers to any two members in
increasing order, provided the relation forces the order. -/
theorem pairwise_mem_of_lt {R : ℤ → ℤ → Prop}
    (hR : ∀ a b, R a b → a < b) :
    ∀ (l : List ℤ), List.Pairwise R l →
      ∀ f g, f ∈ l → g ∈ l → f < g → R f g := by
  intro l
  induction l with
  | nil => intro _ f g hf; simp at hf
  | cons x t ih =>
    intro hp f g hf hg hfg
    have hhead := List.pairwise_cons.mp hp
    rcases List.mem_cons.mp hf with rfl | hf'
    · rcases List.mem_cons.mp hg with rfl | hg'
      · omega
      · exact hhead.1 g hg'
    · rcases List.mem_cons.mp hg with rfl | hg'
      · have := hR _ _ (hhead.1 f hf')
        omega
      · exact ih hhead.2 f g hf' hg' hfg

/-! ### Claims C1, C2, C9, C10 -/

/-- Claim C1: on the score sequence
`[0.5, 0.7, 0.7, 0.3, 0.3, 0.3, 0.7, 0.7, 0.7]` with the default
parameters (`tau_y = 0.45`, `tau_g = 0.65`, `k_up = 2`, `k_down = 1`,
`min_flip_spacing = 3`) and default initial state YELLOW, `state_machine`
emits exactly
`[YELLOW, YELLOW, GREEN, GREEN, GREEN, RED, RED, RED, GREEN]`. -/
theorem C1_state_machine_example :
    state_machine example_scores none DEFAULT_THRESH_HYST none =
      [.YELLOW, .YELLOW, .GREEN, .GREEN, .GREEN, .RED, .RED, .RED, .GREEN] := by
  decide

/-- Claim C2 as stated: any two accepted transitions of any run are
strictly more than `min_flip_spacing` apart, for every input sequence and
every valid parameter set. -/
def StrictlySpacedFlips : Prop :=
  ∀ (scores : List (Option ℚ)) (prev : Option TState) (p : SMParams),
    0 ≤ p.min_flip_spacing → p.tau_y ≤ p.tau_g →
    ∀ f g, f ∈ state_machine_flips scores prev p →
      g ∈ state_machine_flips scores prev p →
      f < g → p.min_flip_spacing < g - f

/-- Claim C2, counterexample to the strict reading: on the spec's own
worked example the classifier accepts flips at positions 2 and 5, exactly
`min_flip_spacing = 3` apart, so the gap is not strictly greater than the
spacing. -/
theorem C2_counterexample : ¬ StrictlySpacedFlips := by
  intro h
  have h25 := h example_scores none DEFAULT_THRESH_HYST (by decide) (by decide)
    2 5 (by decide) (by decide) (by decide)
  exact absurd h25 (by decide)

/-- Claim C2, amended: a transition is accepted only when at least
`min_flip_spacing` observations have elapsed since the last accepted
transition (`i - last_flip_idx >= min_flip_spacing`), so any two accepted
transitions of a `state_machine` run are at least `min_flip_spacing`
observations apart. -/
theorem C2_flip_spacing (scores : List (Option ℚ)) (prev : Option TState)
    (p : SMParams) (f g : ℤ)
    (hf : f ∈ state_machine_flips scores prev p)
    (hg : g ∈ state_machine_flips scores prev p)
    (hfg : f < g) : f + p.min_flip_spacing ≤ g := by
  have hp := sm_flips_pairwise p scores 0 (init_state prev p)
  exact (pairwise_mem_of_lt (fun a b h => h.1) _ hp f g hf hg hfg).2

/-- Claim C2 witness: the worked example's run flips at 2 and 5 and the
amended spacing bound holds there. -/
theorem C2_flip_spacing_witness :
    (2 : ℤ) ∈ state_machine_flips example_scores none DEFAULT_THRESH_HYST ∧
    (5 : ℤ) ∈ state_machine_flips example_scores none DEFAULT_THRESH_HYST ∧
    (2 : ℤ) + DEFAULT_THRESH_HYST.min_flip_spacing ≤ 5 :=
  ⟨by decide, by decide,
    C2_flip_spacing example_scores none DEFAULT_THRESH_HYST 2 5
      (by decide) (by decide) (by decide)⟩

/-- Claim C9: at a position whose score is the NaN sentinel both
threshold comparisons evaluate false, both run counters are reset to 0
(also through a full loop step), and the desired state computed there is
YELLOW unless a zero counter threshold makes it GREEN or RED. -/
theorem C9_nan_score_resets (p : SMParams) (u d : ℕ) (i : ℤ) (st : SMState) :
    pyGE none p.tau_g = false ∧ pyLE none p.tau_y = false ∧
    update_counters p none u d = (0, 0) ∧
    (sm_step p i st none).up_count = 0 ∧
    (sm_step p i st none).down_count = 0 ∧
    desired_state p 0 0 =
      (if p.k_up = 0 then .GREEN else if p.k_down = 0 then .RED
        else .YELLOW) := by
  refine ⟨rfl, rfl, rfl, ?_, ?_, ?_⟩
  · rw [sm_step]
    by_cases hacc : flip_accepted p i st none
    · simp [hacc]
    · simp [hacc, update_counters, pyGE, pyLE]
  · rw [sm_step]
    by_cases hacc : flip_accepted p i st none
    · simp [hacc]
    · simp [hacc, update_counters, pyGE, pyLE]
  · simp [desired_state, Nat.le_zero]

/-- Claim C10: the `timestamps` argument of `state_machine` never
influences the emitted state sequence — any two timestamp arguments
(including none) produce identical output. -/
theorem C10_timestamps_never_influence_output (scores : List (Option ℚ))
    (prev : Option TState) (p : SMParams) (ts1 ts2 : Option (List ℤ)) :
    state_machine scores prev p ts1 = state_machine scores prev p ts2 := rfl

/-! ## Causal normalizer (src/mw/features/scaling.py) and smoother
(src/mw/features/smoothing.py) -/

/-- pandas `Series.clip(0.0, 1.0)` on a defined value. -/
def clip01 (v : ℚ) : ℚ := max 0 (min v 1)

/-- The trailing window of positions `max 0 (i-w+1) .. i`. -/
def trailing_window (x : List (Option ℚ)) (w i : ℕ) : List (Option ℚ) :=
  (x.take (i + 1)).drop (i + 1 - w)

/-- Minimum of the defined values of a window (`rolling(...).min()` with
`min_periods=1` skips NaN; an all-NaN window gives NaN). -/
def qmin : List ℚ → Option ℚ
  | [] => none
  | v :: rest => some (rest.foldl min v)

/-- Maximum of the defined values of a window, as `qmin`. -/
def qmax : List ℚ → Option ℚ
  | [] => none
  | v :: rest => some (rest.foldl max v)

/-- `minmax_causal(x, win, eps)`: trailing rolling min/max with
`min_periods=1`, `(x - min) / (max - min + eps)` clipped to `[0,1]`;
raises when `win <= 0`.  A NaN input position stays NaN. -/
def minmax_causal (x : List (Option ℚ)) (win : ℤ) (eps : ℚ) :
    Except String (List (Option ℚ)) :=
  if win ≤ 0 then .error "win must be positive"
  else
    .ok ((List.range x.length).map (fun i =>
      let vals := (trailing_window x win.toNat i).filterMap id
      match x.getD i none, qmin vals, qmax vals with
      | some xi, some mn, some mx => some (clip01 ((xi - mn) / (mx - mn + eps)))
      | _, _, _ => none))

/-- The recursion `y[i] = alpha*x[i] + (1-alpha)*y[i-1]` of
`ewm(span=span, adjust=False).mean()`. -/
def ema_aux (alpha : ℚ) (prev : ℚ) : List ℚ → List ℚ
  | [] => []
  | v :: rest =>
    let y := alpha * v + (1 - alpha) * prev
    y :: ema_aux alpha y rest

/-- `ema(series, span)`: causal exponential moving average with
`alpha = 2/(span+1)`, `y[0] = x[0]`; raises when `span <= 0`. -/
def ema (s : List ℚ) (span : ℤ) : Except String (List ℚ) :=
  if span ≤ 0 then .error "span must be positive"
  else
    let alpha : ℚ := 2 / ((span : ℚ) + 1)
    .ok (match s with
      | [] => []
      | v :: rest => v :: ema_aux alpha v rest)

/-! ### Helper lemmas for indexed access -/

/-- Element `i` of `(List.range n).map f` is `f i`. -/
theorem getD_map_range {α : Type} (f : ℕ → α) (n i : ℕ) (d : α) (h : i < n) :
    ((List.range n).map f).getD i d = f i := by
  rw [List.getD_eq_getElem?_getD, List.getElem?_map, List.getElem?_range h]
  rfl

/-- Out-of-range access of `(List.range n).map f` yields the default. -/
theorem getD_map_range_ge {α : Type} (f : ℕ → α) (n i : ℕ) (d : α)
    (h : n ≤ i) : ((List.range n).map f).getD i d = d := by
  rw [List.getD_eq_getElem?_getD, List.getElem?_eq_none]
  · rfl
  · simpa using h

/-- `clip01` always lands in `[0, 1]`. -/
theorem clip01_bounds (v : ℚ) : 0 ≤ clip01 v ∧ clip01 v ≤ 1 := by
  unfold clip01
  constructor
  · exact le_max_left 0 _
  · exact max_le (by norm_num) (min_le_right v 1)

/-- Folding `min` over a constant list stays at the constant. -/
theorem foldl_min_const (c : ℚ) :
    ∀ (l : List ℚ) (a : ℚ), (∀ y ∈ l, y = c) → a = c → l.foldl min a = c := by
  intro l
  induction l with
  | nil => intro a _ ha; simpa using ha
  | cons v rest ih =>
    intro a hall ha
    have hv : v = c := hall v (by simp)
    have : min a v = c := by rw [ha, hv, min_self]
    exact ih (min a v) (fun y hy => hall y (by simp [hy])) this

/-- Folding `max` over a constant list stays at the constant. -/
theorem foldl_max_const (c : ℚ) :
    ∀ (l : List ℚ) (a : ℚ), (∀ y ∈ l, y = c) → a = c → l.foldl max a = c := by
  intro l
  induction l with
  | nil => intro a _ ha; simpa using ha
  | cons v rest ih =>
    intro a hall ha
    have hv : v = c := hall v (by simp)
    have : max a v = c := by rw [ha, hv, max_self]
    exact ih (max a v) (fun y hy => hall y (by simp [hy])) this

/-- Position `i` itself belongs to its trailing window. -/
theorem getD_mem_trailing_window (x : List (Option ℚ)) (w i : ℕ)
    (hi : i < x.length) (hw : 1 ≤ w) :
    x.getD i none ∈ trailing_window x w i := by
  have hidx : i + 1 - w + (i - (i + 1 - w)) = i := by omega
  have h1 : (trailing_window x w i)[i - (i + 1 - w)]? = x[i]? := by
    rw [trailing_window, List.getElem?_drop, hidx, List.getElem?_take,
      if_pos (by omega)]
  have h2 : x[i]? = some (x.getD i none) := by
    rw [List.getD_eq_getElem?_getD]
    cases hx : x[i]? with
    | none => exact absurd (List.getElem?_eq_none_iff.mp hx) (by omega)
    | some v => rfl
  exact List.getElem?_mem (by rw [h1, h2])

/-! ### Claim C7 -/

/-- Claim C7: for every input series and positive `win` (and the positive
`eps` the source defaults to), `minmax_causal` succeeds, preserves length,
every defined output lies in `[0,1]`, early/defined positions use a
partial window rather than being invalid, and a constant-valued trailing
window yields 0 rather than the invalid sentinel. -/
theorem C7_minmax_causal_bounds (x : List (Option ℚ)) (win : ℤ) (eps : ℚ)
    (hw : 0 < win) (he : 0 < eps) :
    ∃ out, minmax_causal x win eps = .ok out ∧ out.length = x.length ∧
      (∀ i v, out.getD i none = some v → 0 ≤ v ∧ v ≤ 1) ∧
      (∀ i, i < x.length → (x.getD i none).isSome →
        (out.getD i none).isSome) ∧
      (∀ i, i < x.length → ∀ c,
        (∀ p ∈ trailing_window x win.toNat i, p = some c) →
        out.getD i none = some 0) := by
  have hnot : ¬ win ≤ 0 := by omega
  refine ⟨_, by rw [minmax_causal, if_neg hnot], by simp, ?_, ?_, ?_⟩
  · intro i v hv
    by_cases hi : i < x.length
    · rw [getD_map_range _ _ _ _ hi] at hv
      simp only at hv
      rcases hxi : x.getD i none with _ | xi <;> rw [hxi] at hv
      · simp at hv
      · rcases hmn : qmin ((trailing_window x win.toNat i).filterMap id) with
          _ | mn <;> rw [hmn] at hv
        · simp at hv
        · rcases hmx : qmax ((trailing_window x win.toNat i).filterMap id) with
            _ | mx <;> rw [hmx] at hv
          · simp at hv
          · simp only [Option.some_inj] at hv
            rw [← hv]
            exact clip01_bounds _
    · rw [getD_map_range_ge _ _ _ _ (by omega)] at hv
      simp at hv
  · intro i hi hsome
    rw [getD_map_range _ _ _ _ hi]
    rcases hxi : x.getD i none with _ | xi
    · rw [hxi] at hsome; simp at hsome
    · have hmem : some xi ∈ trailing_window x win.toNat i := by
        have := getD_mem_trailing_window x win.toNat i hi (by omega)
        rwa [hxi] at this
      have hxmem : xi ∈ (trailing_window x win.toNat i).filterMap id :=
        List.mem_filterMap.mpr ⟨some xi, hmem, rfl⟩
      rcases hvals : (trailing_window x win.toNat i).filterMap id with _ | ⟨v, rest⟩
      · rw [hvals] at hxmem; simp at hxmem
      · simp [hvals, qmin, qmax]
  · intro i hi c hconst
    rw [getD_map_range _ _ _ _ hi]
    have hxi : x.getD i none = some c :=
      hconst _ (getD_mem_trailing_window x win.toNat i hi (by omega))
    have hallc : ∀ y ∈ (trailing_window x win.toNat i).filterMap id, y = c := by
      intro y hy
      rcases List.mem_filterMap.mp hy with ⟨a, ha, hid⟩
      have := hconst a ha
      rw [this] at hid
      exact (Option.some_inj.mp hid).symm
    have hxmem : c ∈ (trailing_window x win.toNat i).filterMap id := by
      refine List.mem_filterMap.mpr ⟨some c, ?_, rfl⟩
      rw [← hxi]
      exact getD_mem_trailing_window x win.toNat i hi (by omega)
    rcases hvals : (trailing_window x win.toNat i).filterMap id with _ | ⟨v, rest⟩
    · rw [hvals] at hxmem; simp at hxmem
    · have hvc : v = c := by
        have : v ∈ (trailing_window x win.toNat i).filterMap id := by
          rw [hvals]; simp
        exact hallc v this
      have hrest : ∀ y ∈ rest, y = c := by
        intro y hy
        refine hallc y ?_
        rw [hvals]; simp [hy]
      simp only [hxi, hvals, qmin, qmax]
      rw [foldl_min_const c rest v hrest hvc, foldl_max_const c rest v hrest hvc]
      have : (c - c) / (c - c + eps) = 0 := by
        rw [sub_self, zero_add, zero_div]
      rw [this]
      have : clip01 0 = 0 := by
        unfold clip01
        rw [min_eq_left (by norm_num), max_self]
      rw [this]

/-! ## Permutation entropy (src/mw/features/entropy.py) -/

/-- The strided slice `values[i : i+(m-1)*tau+1 : tau]` of length `m`
(indices `i, i+tau, ..., i+(m-1)*tau`, all in range at every call site). -/
def strided_window (values : List ℚ) (i m tau : ℕ) : List ℚ :=
  (List.range m).map (fun k => values.getD (i + k * tau) 0)

/-- `np.argsort(np.argsort(w, kind=mergesort), kind=mergesort)`: the rank
of component `k` under the stable (first-occurrence-wins) order, i.e. the
number of components lexicographically below `(w[k], k)`. -/
def ordinal_pattern (w : List ℚ) : List ℕ :=
  (List.range w.length).map (fun k =>
    ((List.range w.length).filter (fun j =>
      decide (w.getD j 0 < w.getD k 0 ∨ (w.getD j 0 = w.getD k 0 ∧ j < k)))).length)

/-- `_ordinal_patterns(values, m, tau)`: empty when fewer than
`(m-1)*tau+1` samples, else one pattern per overlapping strided window. -/
def ordinal_patterns (values : List ℚ) (m tau : ℕ) : List (List ℕ) :=
  if values.length < (m - 1) * tau + 1 then []
  else
    (List.range (values.length - (m - 1) * tau)).map
      (fun i => ordinal_pattern (strided_window values i m tau))

/-- Shannon entropy (natural log) of the empirical frequency
distribution of a pattern list: `-sum(p_i * ln(p_i))` over the distinct
patterns, with `p_i = count/total` (`Counter` iterates distinct keys). -/
noncomputable def pattern_distribution_entropy (pats : List (List ℕ)) : ℝ :=
  -((pats.dedup.map (fun p => ((pats.count p : ℝ) / (pats.length : ℝ)) *
      Real.log ((pats.count p : ℝ) / (pats.length : ℝ)))).sum)

/-- `permutation_entropy(series, m, tau)`: Shannon entropy (natural log)
of the empirical ordinal-pattern distribution, normalised by `ln(m!)`.
NaN when there are no patterns; the `ln(m!) = 0` guard mirrors the float
result `0/0 = NaN` reached when `m <= 1`. -/
noncomputable def permutation_entropy (s : List (Option ℚ)) (m tau : ℕ) :
    Option ℝ :=
  if (ordinal_patterns (s.filterMap id) m tau).isEmpty then none
  else if Real.log (Nat.factorial m) = 0 then none
  else some (pattern_distribution_entropy
      (ordinal_patterns (s.filterMap id) m tau) / Real.log (Nat.factorial m))

/-- `rolling_permutation_entropy(series, window, m, tau)`: raises when
`window <= 0`; positions without a full window of defined observations
are NaN, the rest apply `permutation_entropy` to the trailing slice
`series[i-window+1 : i+1]`. -/
noncomputable def rolling_permutation_entropy (s : List (Option ℚ))
    (window : ℤ) (m tau : ℕ) : Except String (List (Option ℝ)) :=
  if window ≤ 0 then .error "window must be positive"
  else
    .ok ((List.range s.length).map (fun i =>
      if i + 1 < window.toNat then none
      else
        let slice := trailing_window s window.toNat i
        if slice.any (fun v => v.isNone) then none
        else permutation_entropy slice m tau))

/-! ### Claim C3 -/

/-- Claim C3: for every series and positive window (and valid `m`, `tau`),
`rolling_permutation_entropy` succeeds with output of the input's length;
at every position with a full window of defined values the output equals
`permutation_entropy` of the trailing slice; positions before `window-1`
or whose slice contains a missing value are NaN. -/
theorem C3_rolling_pe_alignment (s : List (Option ℚ)) (window : ℤ)
    (m tau : ℕ) (hw : 0 < window) (hm : 1 ≤ m) (ht : 1 ≤ tau) :
    ∃ out, rolling_permutation_entropy s window m tau = .ok out ∧
      out.length = s.length ∧
      (∀ i, i < s.length → window.toNat - 1 ≤ i →
        (∀ v ∈ trailing_window s window.toNat i, v.isSome) →
        out.getD i none =
          permutation_entropy (trailing_window s window.toNat i) m tau) ∧
      (∀ i, i < s.length → i < window.toNat - 1 →
        out.getD i none = none) ∧
      (∀ i, i < s.length → none ∈ trailing_window s window.toNat i →
        out.getD i none = none) := by
  have hwn : 1 ≤ window.toNat := by omega
  refine ⟨_, by rw [rolling_permutation_entropy, if_neg (by omega)],
    by simp, ?_, ?_, ?_⟩
  · intro i hi hfull hsome
    rw [getD_map_range _ _ _ _ hi, if_neg (by omega)]
    have hany : (trailing_window s window.toNat i).any
        (fun v => v.isNone) = false := by
      rw [List.any_eq_false]
      intro v hv
      have := hsome v hv
      simp only [Option.isNone_iff_eq_none]
      exact Option.isSome_iff_ne_none.mp this
    simp only [hany]
    rfl
  · intro i hi hearly
    rw [getD_map_range _ _ _ _ hi, if_pos (by omega)]
  · intro i hi hnone
    rw [getD_map_range _ _ _ _ hi]
    by_cases hcut : i + 1 < window.toNat
    · rw [if_pos hcut]
    · rw [if_neg hcut]
      have hany : (trailing_window s window.toNat i).any
          (fun v => v.isNone) = true :=
        List.any_eq_true.mpr ⟨none, hnone, rfl⟩
      simp only [hany]
      rfl

/-! ## Sample entropy (src/mw/features/entropy.py, `sample_entropy`) -/

/-- `np.median` of a rational list: middle of the sorted list, or the
mean of the two middles for even length; 0 for the empty list (no call
site reaches it). -/
def medianQ (l : List ℚ) : ℚ :=
  if l.length = 0 then 0
  else if l.length % 2 = 1 then
    (l.mergeSort (fun a b => decide (a ≤ b))).getD (l.length / 2) 0
  else
    ((l.mergeSort (fun a b => decide (a ≤ b))).getD (l.length / 2 - 1) 0 +
      (l.mergeSort (fun a b => decide (a ≤ b))).getD (l.length / 2) 0) / 2

/-- Chebyshev (max-coordinate) distance between two vectors. -/
def chebyshev (a b : List ℚ) : ℚ :=
  ((a.zip b).map (fun p => |p.1 - p.2|)).foldl max 0

/-- `_delay_embed(x, m, tau)` from src/mw/features/ftle.py: the
`n = len(x) - (m-1)*tau` delay vectors `(x[t], x[t+tau], ...)`; empty
when `n <= 0`.  The source stacks the `m` strided columns; row `t` of
that stack is exactly the vector below.  `sample_entropy`'s template
matrices `emb_m`/`emb_m1` coincide with `_delay_embed x m 1` /
`_delay_embed x (m+1) 1`. -/
def _delay_embed (x : List ℚ) (m tau : ℕ) : List (List ℚ) :=
  if x.length ≤ (m - 1) * tau then []
  else
    (List.range (x.length - (m - 1) * tau)).map
      (fun t => (List.range m).map (fun k => x.getD (t + k * tau) 0))

/-- The number of index pairs `i < j` whose vectors are within Chebyshev
distance `tol` and whose temporal gap exceeds `theiler`
(`query_pairs` + the `j - i > theiler` filter). -/
def match_count (embed : List (List ℚ)) (tol : ℚ) (theiler : ℕ) : ℕ :=
  ((List.range embed.length).map (fun j =>
    ((List.range j).filter (fun i =>
      decide (chebyshev (embed.getD i []) (embed.getD j []) ≤ tol ∧
        theiler < j - i))).length)).sum

/-- `_match_fraction(embed)`: NaN when `n_vec <= theiler + 1` or the
eligible-pair total is zero, else matches divided by
`((n_vec - theiler - 1) * (n_vec - theiler)) // 2`. -/
def match_fraction (embed : List (List ℚ)) (tol : ℚ) (theiler : ℕ) :
    Option ℚ :=
  if embed.length ≤ theiler + 1 then none
  else if ((embed.length - theiler - 1) * (embed.length - theiler)) / 2 = 0
    then none
  else some ((match_count embed tol theiler : ℚ) /
    (((embed.length - theiler - 1) * (embed.length - theiler)) / 2 : ℕ))

/-- The tolerance `r * sigma` with
`sigma = 1.4826 * median(|x - median(x)|)`. -/
def samp_tol (x : List ℚ) (r : ℚ) : ℚ :=
  r * (medianQ (x.map (fun v => |v - medianQ x|)) * (14826 / 10000))

/-- `sample_entropy(series, m, r)`: `-ln(a/b)` where `a`/`b` are the
match fractions at dimensions `m+1`/`m` under Theiler exclusion `m`;
NaN when the series is too short or either fraction is undefined or
zero. -/
noncomputable def sample_entropy (s : List (Option ℚ)) (m : ℕ) (r : ℚ) :
    Option ℝ :=
  if (s.filterMap id).length ≤ m + 1 then none
  else
    match match_fraction (_delay_embed (s.filterMap id) (m + 1) 1)
        (samp_tol (s.filterMap id) r) m,
      match_fraction (_delay_embed (s.filterMap id) m 1)
        (samp_tol (s.filterMap id) r) m with
    | some av, some bv =>
      if av = 0 ∨ bv = 0 then none
      else some (-(Real.log ((av : ℝ) / (bv : ℝ))))
    | _, _ => none

/-! ### Constant-series lemmas -/

/-- Dropping the `some` wrappers of a constant defined series. -/
theorem filterMap_id_replicate (c : ℚ) :
    ∀ n, (List.replicate n (some c)).filterMap id = List.replicate n c := by
  intro n
  induction n with
  | zero => simp
  | succ k ih => simp [List.replicate_succ, ih]

/-- `getD` of a list whose members are all `c` is `c` in range. -/
theorem getD_of_all_eq {α : Type} {l : List α} {c : α}
    (h : ∀ y ∈ l, y = c) {k : ℕ} (hk : k < l.length) (d : α) :
    l.getD k d = c := by
  rw [List.getD_eq_getElem?_getD]
  cases hx : l[k]? with
  | none => exact absurd (List.getElem?_eq_none_iff.mp hx) (by omega)
  | some v => simpa using h v (List.getElem?_mem hx)

/-- Counting `i < M` with `i < k`. -/
theorem length_filter_lt_range (k : ℕ) :
    ∀ M, ((List.range M).filter (fun j => decide (j < k))).length =
      min k M := by
  intro M
  induction M with
  | zero => simp
  | succ M ih =>
    rw [List.range_succ, List.filter_append]
    simp only [List.length_append, ih]
    by_cases h : M < k
    · simp [h]; omega
    · simp [h]; omega

/-- Duplicate-free view of a constant pattern list. -/
theorem dedup_replicate {α : Type} [DecidableEq α] (p : α) :
    ∀ N, 1 ≤ N → (List.replicate N p).dedup = [p] := by
  intro N
  induction N with
  | zero => omega
  | succ k ih =>
    intro _
    cases k with
    | zero => simp
    | succ k2 =>
      rw [List.replicate_succ,
        List.dedup_cons_of_mem (by simp [List.mem_replicate])]
      exact ih (by omega)

/-- The median of a nonempty constant list is the constant. -/
theorem medianQ_replicate (c : ℚ) (n : ℕ) (hn : 1 ≤ n) :
    medianQ (List.replicate n c) = c := by
  have hall : ∀ y ∈ (List.replicate n c).mergeSort
      (fun a b => decide (a ≤ b)), y = c := by
    intro y hy
    exact (List.mem_replicate.mp (List.mem_mergeSort.mp hy)).2
  have hlen : ((List.replicate n c).mergeSort
      (fun a b => decide (a ≤ b))).length = n := by
    rw [List.length_mergeSort, List.length_replicate]
  rw [medianQ, List.length_replicate, if_neg (by omega)]
  by_cases hodd : n % 2 = 1
  · rw [if_pos hodd, getD_of_all_eq hall (by omega) 0]
  · rw [if_neg hodd, getD_of_all_eq hall (by omega) 0,
      getD_of_all_eq hall (by omega) 0, add_self_div_two]

/-- The Chebyshev distance of a constant vector to itself is 0. -/
theorem chebyshev_self (v : List ℚ) : chebyshev v v = 0 := by
  induction v with
  | nil => simp [chebyshev]
  | cons a t ih =>
    rw [chebyshev] at ih ⊢
    simp only [List.zip_cons_cons, List.map_cons, List.foldl_cons, sub_self,
      abs_zero, max_self]
    exact ih

/-- A strided window drawn from a constant series is constant. -/
theorem strided_window_replicate (c : ℚ) (n i m tau : ℕ)
    (h : i + (m - 1) * tau < n) :
    strided_window (List.replicate n c) i m tau = List.replicate m c := by
  rw [strided_window]
  have hmap : ∀ k ∈ List.range m,
      (List.replicate n c).getD (i + k * tau) 0 = c := by
    intro k hk
    have hk2 : k < m := List.mem_range.mp hk
    have hlt : i + k * tau < n := by
      have : k * tau ≤ (m - 1) * tau := Nat.mul_le_mul_right tau (by omega)
      omega
    exact getD_of_all_eq (fun y hy => (List.mem_replicate.mp hy).2)
      (by simpa using hlt) 0
  rw [List.map_congr_left hmap, List.map_const', List.length_range]

/-- On a constant series every ordinal pattern is the same pattern. -/
theorem ordinal_patterns_replicate (c : ℚ) (n m tau : ℕ)
    (ht : 1 ≤ tau) (hn : (m - 1) * tau + 1 ≤ n) :
    ordinal_patterns (List.replicate n c) m tau =
      List.replicate (n - (m - 1) * tau)
        (ordinal_pattern (List.replicate m c)) := by
  rw [ordinal_patterns, List.length_replicate, if_neg (by omega)]
  have hmap : ∀ t ∈ List.range (n - (m - 1) * tau),
      ordinal_pattern (strided_window (List.replicate n c) t m tau) =
        ordinal_pattern (List.replicate m c) := by
    intro t ht'
    have ht2 := List.mem_range.mp ht'
    rw [strided_window_replicate c n t m tau (by omega)]
  rw [List.map_congr_left hmap, List.map_const', List.length_range]

/-- A single repeated pattern carries zero Shannon entropy. -/
theorem pattern_distribution_entropy_replicate (p : List ℕ) (N : ℕ)
    (hN : 1 ≤ N) :
    pattern_distribution_entropy (List.replicate N p) = 0 := by
  rw [pattern_distribution_entropy, dedup_replicate p N hN]
  simp only [List.map_cons, List.map_nil, List.sum_cons, List.sum_nil,
    List.count_replicate_self, List.length_replicate, add_zero]
  have hNne : (N : ℝ) ≠ 0 := Nat.cast_ne_zero.mpr (by omega)
  rw [div_self hNne, Real.log_one, mul_zero, neg_zero]

/-- Permutation entropy of a constant series is exactly 0 (for the
meaningful dimensions `m >= 2`; for `m <= 1` the float code yields
NaN through `0/0`). -/
theorem permutation_entropy_const (c : ℚ) (n m tau : ℕ) (hm : 2 ≤ m)
    (ht : 1 ≤ tau) (hn : (m - 1) * tau + 1 ≤ n) :
    permutation_entropy (List.replicate n (some c)) m tau = some 0 := by
  rw [permutation_entropy, filterMap_id_replicate,
    ordinal_patterns_replicate c n m tau ht hn]
  have hN : 1 ≤ n - (m - 1) * tau := by omega
  have hne : ¬ ((List.replicate (n - (m - 1) * tau)
      (ordinal_pattern (List.replicate m c))).isEmpty = true) := by
    intro h
    rw [List.isEmpty_iff] at h
    have := congrArg List.length h
    simp at this
    omega
  have hlog : ¬ (Real.log (Nat.factorial m) = 0) := by
    have h2 : 2 ≤ Nat.factorial m := le_trans hm (Nat.self_le_factorial m)
    have hcast : (1 : ℝ) < (Nat.factorial m : ℝ) := by exact_mod_cast by omega
    exact ne_of_gt (Real.log_pos hcast)
  rw [if_neg hne, if_neg hlog,
    pattern_distribution_entropy_replicate _ _ hN, zero_div]

/-- Delay embedding (delay 1) of a constant series is a constant list of
constant vectors. -/
theorem delay_embed_replicate (c : ℚ) (n m' : ℕ) (h : m' - 1 < n) :
    _delay_embed (List.replicate n c) m' 1 =
      List.replicate (n - (m' - 1)) (List.replicate m' c) := by
  rw [_delay_embed, List.length_replicate, if_neg (by omega)]
  have hmap : ∀ t ∈ List.range (n - (m' - 1) * 1),
      ((List.range m').map
        (fun k => (List.replicate n c).getD (t + k * 1) 0)) =
        List.replicate m' c := by
    intro t ht'
    have ht2 := List.mem_range.mp ht'
    have hlt : t + (m' - 1) * 1 < n := by omega
    simpa [strided_window] using strided_window_replicate c n t m' 1 hlt
  rw [List.map_congr_left hmap, List.map_const', List.length_range]
  congr 1
  omega

/-- Closed form for twice the eligible-pair count. -/
theorem two_mul_sum_gap (θ : ℕ) :
    ∀ N, 2 * (((List.range N).map (fun j => j - θ)).sum) =
      (N - θ - 1) * (N - θ) := by
  intro N
  induction N with
  | zero => simp
  | succ N ih =>
    rw [List.range_succ, List.map_append, List.sum_append]
    simp only [List.map_cons, List.map_nil, List.sum_cons, List.sum_nil,
      add_zero]
    rw [Nat.mul_add, ih]
    rcases Nat.lt_or_ge θ N with h | h
    · obtain ⟨b, rfl⟩ : ∃ b, N = θ + b + 1 := ⟨N - θ - 1, by omega⟩
      have e1 : θ + b + 1 - θ - 1 = b := by omega
      have e2 : θ + b + 1 - θ = b + 1 := by omega
      have e3 : θ + b + 1 + 1 - θ - 1 = b + 1 := by omega
      have e4 : θ + b + 1 + 1 - θ = b + 2 := by omega
      rw [e1, e2, e3, e4]
      ring
    · have e1 : N - θ = 0 := by omega
      have e2 : N + 1 - θ - 1 = 0 := by omega
      rw [e1, e2]
      simp

/-- On a constant embedding every eligible pair matches. -/
theorem match_count_replicate (c : ℚ) (m' θ N : ℕ) (tol : ℚ)
    (htol : 0 ≤ tol) :
    match_count (List.replicate N (List.replicate m' c)) tol θ =
      ((List.range N).map (fun j => j - θ)).sum := by
  rw [match_count, List.length_replicate]
  congr 1
  apply List.map_congr_left
  intro j hj
  have hjN : j < N := List.mem_range.mp hj
  have hfun : ∀ i ∈ List.range j,
      (decide (chebyshev
          ((List.replicate N (List.replicate m' c)).getD i [])
          ((List.replicate N (List.replicate m' c)).getD j []) ≤ tol ∧
          θ < j - i)) = decide (i < j - θ) := by
    intro i hi
    have hij : i < j := List.mem_range.mp hi
    have hgi : (List.replicate N (List.replicate m' c)).getD i [] =
        List.replicate m' c :=
      getD_of_all_eq (fun y hy => (List.mem_replicate.mp hy).2)
        (by simp; omega) []
    have hgj : (List.replicate N (List.replicate m' c)).getD j [] =
        List.replicate m' c :=
      getD_of_all_eq (fun y hy => (List.mem_replicate.mp hy).2)
        (by simp; omega) []
    rw [hgi, hgj, chebyshev_self]
    apply decide_eq_decide.mpr
    constructor
    · intro hh; omega
    · intro hh; exact ⟨htol, by omega⟩
  rw [List.filter_congr hfun, length_filter_lt_range (j - θ) j]
  omega

/-- The match fraction of a constant embedding is 1 whenever it is
defined. -/
theorem match_fraction_replicate (c : ℚ) (m' θ N : ℕ) (tol : ℚ)
    (htol : 0 ≤ tol) (hN : θ + 1 < N) :
    match_fraction (List.replicate N (List.replicate m' c)) tol θ =
      some 1 := by
  have hsum := two_mul_sum_gap θ N
  set S := ((List.range N).map (fun j => j - θ)).sum with hS
  have htot : ((N - θ - 1) * (N - θ)) / 2 = S := by
    rw [← hsum, Nat.mul_div_cancel_left S (by norm_num)]
  have hS1 : 1 ≤ S := by
    have h2 : 1 * 2 ≤ (N - θ - 1) * (N - θ) :=
      Nat.mul_le_mul (by omega) (by omega)
    omega
  rw [match_fraction, List.length_replicate, htot, if_neg (by omega),
    if_neg (by omega), match_count_replicate c m' θ N tol htol, ← hS]
  rw [div_self (by exact_mod_cast (by omega : S ≠ 0))]

/-- Sample entropy of a constant series is exactly 0 once the series is
long enough for both match fractions to be defined. -/
theorem sample_entropy_const (c : ℚ) (n m : ℕ) (r : ℚ) (hm : 1 ≤ m)
    (hn : 2 * m + 2 ≤ n) :
    sample_entropy (List.replicate n (some c)) m r = some 0 := by
  have htol : samp_tol (List.replicate n c) r = 0 := by
    rw [samp_tol, medianQ_replicate c n (by omega), List.map_replicate]
    simp only [sub_self, abs_zero]
    rw [medianQ_replicate 0 n (by omega), zero_mul, mul_zero]
  rw [sample_entropy, filterMap_id_replicate,
    if_neg (by rw [List.length_replicate]; omega), htol,
    delay_embed_replicate c n (m + 1) (by omega),
    delay_embed_replicate c n m (by omega),
    match_fraction_replicate c (m + 1) m (n - (m + 1 - 1)) 0 le_rfl
      (by omega),
    match_fraction_replicate c m m (n - (m - 1)) 0 le_rfl (by omega)]
  show (if (1 : ℚ) = 0 ∨ (1 : ℚ) = 0 then none
    else some (-Real.log (((1 : ℚ) : ℝ) / ((1 : ℚ) : ℝ)))) = some 0
  rw [if_neg (by norm_num)]
  norm_num

/-! ### Claim C6 -/

/-- Claim C6: every constant series long enough for the estimator to
return a valid value has `permutation_entropy = 0` and
`sample_entropy = 0` (the MAD-derived tolerance is 0, the match
fractions at `m` and `m+1` are both 1, and `-ln(1/1) = 0`). -/
theorem C6_constant_series_zero_entropy (c1 c2 : ℚ) (n1 m1 tau n2 m2 : ℕ)
    (r : ℚ) (hm1 : 2 ≤ m1) (ht : 1 ≤ tau)
    (hn1 : (m1 - 1) * tau + 1 ≤ n1) (hm2 : 1 ≤ m2)
    (hn2 : 2 * m2 + 2 ≤ n2) :
    permutation_entropy (List.replicate n1 (some c1)) m1 tau = some 0 ∧
    sample_entropy (List.replicate n2 (some c2)) m2 r = some 0 :=
  ⟨permutation_entropy_const c1 n1 m1 tau hm1 ht hn1,
    sample_entropy_const c2 n2 m2 r hm2 hn2⟩

/-- Claim C6 witness: constant series of length 5 (entropy, `m=3`,
`tau=1`) and length 7 (sample entropy, `m=2`). -/
theorem C6_constant_series_zero_entropy_witness :
    2 ≤ 3 ∧ 1 ≤ 1 ∧ (3 - 1) * 1 + 1 ≤ 5 ∧ 1 ≤ 2 ∧ 2 * 2 + 2 ≤ 7 ∧
    (permutation_entropy (List.replicate 5 (some (0 : ℚ))) 3 1 = some 0 ∧
      sample_entropy (List.replicate 7 (some (0 : ℚ))) 2 0 = some 0) :=
  ⟨by norm_num, le_rfl, by norm_num, by norm_num, by norm_num,
    C6_constant_series_zero_entropy 0 0 5 3 1 7 2 0 (by norm_num) le_rfl
      (by norm_num) (by norm_num) (by norm_num)⟩

/-- A small fully-defined series used by concrete witnesses. -/
def witness_series : List (Option ℚ) := [some 1, some 2, some 1]

/-- Claim C7 witness: the minmax-causal properties instantiated at a
concrete series, `win = 2` and `eps = 1`. -/
theorem C7_minmax_causal_bounds_witness :
    (0 : ℤ) < 2 ∧ (0 : ℚ) < 1 ∧
    (∃ out, minmax_causal witness_series 2 1 = .ok out ∧
      out.length = witness_series.length ∧
      (∀ i v, out.getD i none = some v → 0 ≤ v ∧ v ≤ 1) ∧
      (∀ i, i < witness_series.length →
        (witness_series.getD i none).isSome →
        (out.getD i none).isSome) ∧
      (∀ i, i < witness_series.length → ∀ c,
        (∀ p ∈ trailing_window witness_series (2 : ℤ).toNat i, p = some c) →
        out.getD i none = some 0)) :=
  ⟨by norm_num, by norm_num,
    C7_minmax_causal_bounds witness_series 2 1 (by norm_num) (by norm_num)⟩

/-- Claim C3 witness: the rolling-alignment properties instantiated at a
concrete series with `window = 2`, `m = 3`, `tau = 1`. -/
theorem C3_rolling_pe_alignment_witness :
    (0 : ℤ) < 2 ∧ 1 ≤ 3 ∧ 1 ≤ 1 ∧
    (∃ out, rolling_permutation_entropy witness_series 2 3 1 = .ok out ∧
      out.length = witness_series.length ∧
      (∀ i, i < witness_series.length → (2 : ℤ).toNat - 1 ≤ i →
        (∀ v ∈ trailing_window witness_series (2 : ℤ).toNat i, v.isSome) →
        out.getD i none =
          permutation_entropy
            (trailing_window witness_series (2 : ℤ).toNat i) 3 1) ∧
      (∀ i, i < witness_series.length → i < (2 : ℤ).toNat - 1 →
        out.getD i none = none) ∧
      (∀ i, i < witness_series.length →
        none ∈ trailing_window witness_series (2 : ℤ).toNat i →
        out.getD i none = none)) :=
  ⟨by norm_num, by norm_num, le_rfl,
    C3_rolling_pe_alignment witness_series 2 3 1 (by norm_num) (by norm_num)
      le_rfl⟩

/-! ## FTLE via the Rosenstein method (src/mw/features/ftle.py) -/

/-- Python tail slice `a[-w:]` for an `int` `w`: the whole list when
`w = 0` (since `-0 == 0`), the last `w` elements when `w > 0`, and
`a[|w|:]` when `w < 0`. -/
def pyTail {α : Type} (l : List α) (w : ℤ) : List α :=
  if w = 0 then l
  else if 0 < w then l.drop (l.length - w.toNat)
  else l.drop (-w).toNat

/-- Squared Euclidean distance between two embedded vectors.  The source
compares `np.linalg.norm` (Euclidean) distances; squaring is strictly
monotone on nonnegative reals, so selection by squared distance picks
the same nearest neighbour. -/
def distSq (a b : List ℚ) : ℚ :=
  ((a.zip b).map (fun p => (p.1 - p.2) ^ 2)).sum

/-- The nearest-neighbour index `ftle_rosenstein` uses for anchor `i`:
the source sets the distances at indices with `|j - i| <= theiler` to
`inf` and takes `np.argmin` over the ANCHOR rows only.  Equivalently:
the first minimiser of the distance over the unmasked anchor indices,
and 0 when every index is masked (`np.argmin` of an all-`inf` vector
is 0). -/
def nn_index (anchors : List (List ℚ)) (i theiler : ℕ) : ℕ :=
  (((List.range anchors.length).filter
      (fun j : ℕ => decide (theiler < ((j : ℤ) - (i : ℤ)).natAbs))).argmin
    (fun j => distSq (anchors.getD i []) (anchors.getD j []))).getD 0

/-- Least-squares slope of `y` against `1..len(y)`; NaN when the
denominator `sum((x - mean(x))^2)` vanishes, which for `x = 1..n`
happens exactly when `n <= 1`. -/
noncomputable def ls_slope (y : List ℝ) : Option ℝ :=
  let n := y.length
  let xs := (List.range n).map (fun t => (t : ℝ) + 1)
  let xm := xs.sum / (n : ℝ)
  let ym := y.sum / (n : ℝ)
  if n ≤ 1 then none
  else some (((xs.zip y).map (fun p => (p.1 - xm) * (p.2 - ym))).sum /
    ((xs.map (fun a => (a - xm) ^ 2)).sum))

/-- The per-anchor divergence slope: nearest neighbour `j`, then the
least-squares slope of `ln(max(dist, 1e-8))` against `k = 1..horizon`,
with the Euclidean distance `sqrt(distSq)` between the two forward
trajectories. -/
noncomputable def anchor_slope (embed : List (List ℚ))
    (valid theiler horizon i : ℕ) : Option ℝ :=
  ls_slope ((List.range horizon).map (fun k0 =>
    Real.log (max
      (Real.sqrt ((distSq (embed.getD (i + (k0 + 1)) [])
        (embed.getD (nn_index (embed.take valid) i theiler + (k0 + 1))
          []) : ℚ) : ℝ))
      (1 / 100000000))))

/-- `np.nanmedian`: drop the NaN entries; NaN when none remain, else the
middle of the sorted values (mean of the two middles for even count). -/
noncomputable def nanmedianR (l : List (Option ℝ)) : Option ℝ :=
  if (l.filterMap id).length = 0 then none
  else if (l.filterMap id).length % 2 = 1 then
    some (((l.filterMap id).mergeSort (fun a b => decide (a ≤ b))).getD
      ((l.filterMap id).length / 2) 0)
  else
    some ((((l.filterMap id).mergeSort (fun a b => decide (a ≤ b))).getD
        ((l.filterMap id).length / 2 - 1) 0 +
      ((l.filterMap id).mergeSort (fun a b => decide (a ≤ b))).getD
        ((l.filterMap id).length / 2) 0) / 2)

/-- The body of `ftle_rosenstein` on the already-extracted tail `x`:
NaN when at most `horizon + 1` embedded vectors exist, else the
nanmedian of the per-anchor slopes over the `n_vectors - horizon`
anchors. -/
noncomputable def ftle_core (x : List ℚ) (m tau horizon theiler : ℕ) :
    Option ℝ :=
  if (_delay_embed x m tau).length ≤ horizon + 1 then none
  else
    nanmedianR ((List.range ((_delay_embed x m tau).length - horizon)).map
      (anchor_slope (_delay_embed x m tau)
        ((_delay_embed x m tau).length - horizon) theiler horizon))

/-- `ftle_rosenstein(series, window, m, tau, horizon, theiler)`:
the estimator applied to `series.dropna()[-window:]`. -/
noncomputable def ftle_rosenstein (s : List (Option ℚ)) (window : ℤ)
    (m tau horizon theiler : ℕ) : Option ℝ :=
  ftle_core (pyTail (s.filterMap id) window) m tau horizon theiler

/-- The embedded-vector list of the `ftle_rosenstein` pipeline. -/
def ftle_embed (s : List (Option ℚ)) (window : ℤ) (m tau : ℕ) :
    List (List ℚ) :=
  _delay_embed (pyTail (s.filterMap id) window) m tau

/-- `rolling_ftle_rosenstein(series, window, ...)`:
`series.rolling(window, min_periods=window).apply(...)` — NaN until the
trailing window is fully populated, else the point estimator on the
window (which the source calls with `window=len(x)`). -/
noncomputable def rolling_ftle_rosenstein (s : List (Option ℚ))
    (window m tau horizon theiler : ℕ) : List (Option ℝ) :=
  (List.range s.length).map (fun i =>
    if i + 1 < window then none
    else if (trailing_window s window i).any (fun v => v.isNone) then none
    else ftle_rosenstein (trailing_window s window i) (window : ℤ)
      m tau horizon theiler)

/-! ### Claim C5 -/

/-- Claim C5: on a series without missing values whose length covers the
window, every rolling output before the window is fully populated is
NaN, every fully-populated output equals the point estimator applied to
the trailing `W`-length window, and in particular the last rolling value
equals `ftle_rosenstein` applied directly to the trailing window. -/
theorem C5_rolling_ftle_matches_direct (l : List ℚ)
    (W m tau horizon theiler : ℕ) (hW : 1 ≤ W) (hl : W ≤ l.length) :
    (∀ i, i < l.length → i + 1 < W →
      (rolling_ftle_rosenstein (l.map some) W m tau horizon
        theiler).getD i none = none) ∧
    (∀ i, i < l.length → W ≤ i + 1 →
      (rolling_ftle_rosenstein (l.map some) W m tau horizon
        theiler).getD i none =
        ftle_rosenstein (((l.take (i + 1)).drop (i + 1 - W)).map some)
          (W : ℤ) m tau horizon theiler) ∧
    (rolling_ftle_rosenstein (l.map some) W m tau horizon
      theiler).getD (l.length - 1) none =
      ftle_rosenstein ((l.drop (l.length - W)).map some) (W : ℤ) m tau
        horizon theiler := by
  have hlen : (l.map some).length = l.length := List.length_map l some
  have part1 : ∀ i, i < l.length → i + 1 < W →
      (rolling_ftle_rosenstein (l.map some) W m tau horizon
        theiler).getD i none = none := by
    intro i hi hcut
    rw [rolling_ftle_rosenstein,
      getD_map_range _ _ _ _ (by rw [hlen]; exact hi), if_pos hcut]
  have part2 : ∀ i, i < l.length → W ≤ i + 1 →
      (rolling_ftle_rosenstein (l.map some) W m tau horizon
        theiler).getD i none =
        ftle_rosenstein (((l.take (i + 1)).drop (i + 1 - W)).map some)
          (W : ℤ) m tau horizon theiler := by
    intro i hi hfull
    rw [rolling_ftle_rosenstein,
      getD_map_range _ _ _ _ (by rw [hlen]; exact hi), if_neg (by omega)]
    have hslice : trailing_window (l.map some) W i =
        ((l.take (i + 1)).drop (i + 1 - W)).map some := by
      rw [trailing_window, ← List.map_take, ← List.map_drop]
    rw [hslice]
    have hany : ((((l.take (i + 1)).drop (i + 1 - W)).map some).any
        (fun v => v.isNone)) = false := by
      simp
      intro x hx
      have hx2 : x ∈ l.map some :=
        List.mem_of_mem_take (List.mem_of_mem_drop hx)
      rcases List.mem_map.mp hx2 with ⟨a, _, rfl⟩
      simp
    rw [hany]
    simp
  refine ⟨part1, part2, ?_⟩
  have hlast := part2 (l.length - 1) (by omega) (by omega)
  have heq : (l.take (l.length - 1 + 1)).drop (l.length - 1 + 1 - W) =
      l.drop (l.length - W) := by
    have h1 : l.length - 1 + 1 = l.length := by omega
    rw [h1, List.take_length]
  rw [hlast, heq]

/-- A small fully-defined rational series for the FTLE witnesses. -/
def witness_values : List ℚ := [1, 2, 3]

/-- Claim C5 witness: the rolling/direct agreement instantiated at a
concrete three-point series with `W = 2`. -/
theorem C5_rolling_ftle_matches_direct_witness :
    1 ≤ 2 ∧ 2 ≤ witness_values.length ∧
    ((∀ i, i < witness_values.length → i + 1 < 2 →
      (rolling_ftle_rosenstein (witness_values.map some) 2 3 1 10
        2).getD i none = none) ∧
    (∀ i, i < witness_values.length → 2 ≤ i + 1 →
      (rolling_ftle_rosenstein (witness_values.map some) 2 3 1 10
        2).getD i none =
        ftle_rosenstein
          (((witness_values.take (i + 1)).drop (i + 1 - 2)).map some)
          ((2 : ℕ) : ℤ) 3 1 10 2) ∧
    (rolling_ftle_rosenstein (witness_values.map some) 2 3 1 10
      2).getD (witness_values.length - 1) none =
      ftle_rosenstein ((witness_values.drop (witness_values.length - 2)).map
        some) ((2 : ℕ) : ℤ) 3 1 10 2) :=
  ⟨by norm_num, by decide,
    C5_rolling_ftle_matches_direct witness_values 2 3 1 10 2 (by norm_num)
      (by decide)⟩

/-! ### Claim C4 -/

/-- The selected neighbour is an anchor index outside the Theiler band
and minimises the distance over all such anchor indices, as soon as one
eligible anchor index exists. -/
theorem nn_index_minimal (anchors : List (List ℚ)) (i theiler j : ℕ)
    (hj : j < anchors.length)
    (hjth : theiler < ((j : ℤ) - (i : ℤ)).natAbs) :
    nn_index anchors i theiler < anchors.length ∧
    theiler < (((nn_index anchors i theiler : ℕ) : ℤ) - (i : ℤ)).natAbs ∧
    distSq (anchors.getD i [])
        (anchors.getD (nn_index anchors i theiler) []) ≤
      distSq (anchors.getD i []) (anchors.getD j []) := by
  have hjc : j ∈ (List.range anchors.length).filter
      (fun j2 : ℕ => decide (theiler < ((j2 : ℤ) - (i : ℤ)).natAbs)) :=
    List.mem_filter.mpr ⟨List.mem_range.mpr hj, by simpa using hjth⟩
  rcases harg : ((List.range anchors.length).filter
      (fun j2 : ℕ => decide (theiler < ((j2 : ℤ) - (i : ℤ)).natAbs))).argmin
      (fun j2 => distSq (anchors.getD i []) (anchors.getD j2 []))
    with _ | a
  · exfalso
    rw [List.argmin_eq_none.mp harg] at hjc
    simp at hjc
  · have hnn : nn_index anchors i theiler = a := by
      rw [nn_index, harg]
      rfl
    have hmem := List.argmin_mem (Option.mem_def.mpr harg)
    have hlt := List.mem_range.mp (List.mem_filter.mp hmem).1
    have hth : theiler < ((a : ℤ) - (i : ℤ)).natAbs := by
      have := (List.mem_filter.mp hmem).2
      simpa using this
    have hmin := List.le_of_mem_argmin hjc (Option.mem_def.mpr harg)
    rw [hnn]
    exact ⟨hlt, hth, hmin⟩

/-- Claim C4, amended: in `ftle_rosenstein` the nearest neighbour of an
anchor is selected among the ANCHOR vectors only (the embedded vectors
except the last `horizon` ones) whose index differs from the anchor's by
more than `theiler`; it minimises the distance over that restricted set,
not over all embedded vectors. -/
theorem C4_nn_minimal_over_anchor_set (s : List (Option ℚ)) (window : ℤ)
    (m tau horizon theiler j i : ℕ)
    (hj : j < (ftle_embed s window m tau).length - horizon)
    (hjth : theiler < ((j : ℤ) - (i : ℤ)).natAbs) :
    nn_index ((ftle_embed s window m tau).take
        ((ftle_embed s window m tau).length - horizon)) i theiler <
      (ftle_embed s window m tau).length - horizon ∧
    theiler < (((nn_index ((ftle_embed s window m tau).take
        ((ftle_embed s window m tau).length - horizon)) i theiler : ℕ) :
          ℤ) - (i : ℤ)).natAbs ∧
    distSq (((ftle_embed s window m tau).take
          ((ftle_embed s window m tau).length - horizon)).getD i [])
        (((ftle_embed s window m tau).take
          ((ftle_embed s window m tau).length - horizon)).getD
            (nn_index ((ftle_embed s window m tau).take
              ((ftle_embed s window m tau).length - horizon)) i theiler)
            []) ≤
      distSq (((ftle_embed s window m tau).take
          ((ftle_embed s window m tau).length - horizon)).getD i [])
        (((ftle_embed s window m tau).take
          ((ftle_embed s window m tau).length - horizon)).getD j []) := by
  have hlen : ((ftle_embed s window m tau).take
      ((ftle_embed s window m tau).length - horizon)).length =
      (ftle_embed s window m tau).length - horizon := by
    rw [List.length_take]
    omega
  have h := nn_index_minimal ((ftle_embed s window m tau).take
    ((ftle_embed s window m tau).length - horizon)) i theiler j
    (by rw [hlen]; exact hj) hjth
  rwa [hlen] at h

/-- The concrete series refuting the all-vectors neighbour claim. -/
def neighbor_example : List (Option ℚ) :=
  [some 0, some 100, some 30, some 31]

/-- Claim C4 witness: the amended minimality applied on the concrete
pipeline (`window = 4`, `m = 1`, `tau = 1`, `horizon = 1`,
`theiler = 0`, anchor 2, eligible anchor 0). -/
theorem C4_nn_minimal_over_anchor_set_witness :
    0 < (ftle_embed neighbor_example 4 1 1).length - 1 ∧
    (0 : ℕ) < (((0 : ℕ) : ℤ) - ((2 : ℕ) : ℤ)).natAbs ∧
    (nn_index ((ftle_embed neighbor_example 4 1 1).take
        ((ftle_embed neighbor_example 4 1 1).length - 1)) 2 0 <
      (ftle_embed neighbor_example 4 1 1).length - 1 ∧
    (0 : ℕ) < (((nn_index ((ftle_embed neighbor_example 4 1 1).take
        ((ftle_embed neighbor_example 4 1 1).length - 1)) 2 0 : ℕ) :
          ℤ) - ((2 : ℕ) : ℤ)).natAbs ∧
    distSq (((ftle_embed neighbor_example 4 1 1).take
          ((ftle_embed neighbor_example 4 1 1).length - 1)).getD 2 [])
        (((ftle_embed neighbor_example 4 1 1).take
          ((ftle_embed neighbor_example 4 1 1).length - 1)).getD
            (nn_index ((ftle_embed neighbor_example 4 1 1).take
              ((ftle_embed neighbor_example 4 1 1).length - 1)) 2 0)
            []) ≤
      distSq (((ftle_embed neighbor_example 4 1 1).take
          ((ftle_embed neighbor_example 4 1 1).length - 1)).getD 2 [])
        (((ftle_embed neighbor_example 4 1 1).take
          ((ftle_embed neighbor_example 4 1 1).length - 1)).getD 0 [])) :=
  ⟨by decide, by decide,
    C4_nn_minimal_over_anchor_set neighbor_example 4 1 1 1 0 0 2
      (by decide) (by decide)⟩

/-- Claim C4 as stated: for every anchor, the selected neighbour would be
nearest among ALL embedded vectors whose index differs from the anchor's
by more than `theiler`. -/
def NeighborSearchOverAllVectors : Prop :=
  ∀ (s : List (Option ℚ)) (window : ℤ) (m tau horizon theiler : ℕ),
    horizon + 1 < (ftle_embed s window m tau).length →
    ∀ i, i < (ftle_embed s window m tau).length - horizon →
    ∀ j, j < (ftle_embed s window m tau).length →
      theiler < ((j : ℤ) - (i : ℤ)).natAbs →
      distSq ((ftle_embed s window m tau).getD i [])
          ((ftle_embed s window m tau).getD
            (nn_index ((ftle_embed s window m tau).take
              ((ftle_embed s window m tau).length - horizon)) i theiler)
            []) ≤
        distSq ((ftle_embed s window m tau).getD i [])
          ((ftle_embed s window m tau).getD j [])

/-- Claim C4 counterexample: on `[0, 100, 30, 31]` with `m = 1`,
`tau = 1`, `horizon = 1`, `theiler = 0`, the anchor at index 2 (value 30)
has true nearest eligible vector at index 3 (value 31, distance 1), but
index 3 is excluded from the anchor candidate set, so the selected
neighbour is at distance at least 30 — the claimed minimality over all
vectors fails. -/
theorem C4_counterexample : ¬ NeighborSearchOverAllVectors := by
  intro h
  have hinst := h neighbor_example 4 1 1 1 0 (by decide) 2 (by decide) 3
    (by decide) (by decide)
  obtain ⟨hnn3, hnnth, _⟩ := nn_index_minimal
    ((ftle_embed neighbor_example 4 1 1).take
      ((ftle_embed neighbor_example 4 1 1).length - 1)) 2 0 0
    (by decide) (by decide)
  set nn := nn_index ((ftle_embed neighbor_example 4 1 1).take
    ((ftle_embed neighbor_example 4 1 1).length - 1)) 2 0 with hnndef
  have hlen3 : ((ftle_embed neighbor_example 4 1 1).take
      ((ftle_embed neighbor_example 4 1 1).length - 1)).length = 3 := by
    decide
  rw [hlen3] at hnn3
  have hval2 : (ftle_embed neighbor_example 4 1 1).getD 2 [] =
      [(30 : ℚ)] := rfl
  have hval3 : (ftle_embed neighbor_example 4 1 1).getD 3 [] =
      [(31 : ℚ)] := rfl
  have hd1 : distSq [(30 : ℚ)] [(31 : ℚ)] = 1 := by
    norm_num [distSq, List.zip_cons_cons]
  have hcases : nn = 0 ∨ nn = 1 := by omega
  rcases hcases with h0 | h1
  · rw [h0, hval2, hval3] at hinst
    have hval0 : (ftle_embed neighbor_example 4 1 1).getD 0 [] =
        [(0 : ℚ)] := rfl
    rw [hval0, hd1] at hinst
    have hd0 : distSq [(30 : ℚ)] [(0 : ℚ)] = 900 := by
      norm_num [distSq, List.zip_cons_cons]
    rw [hd0] at hinst
    norm_num at hinst
  · rw [h1, hval2, hval3] at hinst
    have hval1 : (ftle_embed neighbor_example 4 1 1).getD 1 [] =
        [(100 : ℚ)] := rfl
    rw [hval1, hd1] at hinst
    have hd100 : distSq [(30 : ℚ)] [(100 : ℚ)] = 4900 := by
      norm_num [distSq, List.zip_cons_cons]
    rw [hd100] at hinst
    norm_num at hinst

/-! ### Claim C8 -/

/-- A call of `ftle_rosenstein` as an exception-aware computation: the
source performs no validation of `window` (no `raise` on any path for a
non-positive value — `x[-window:]` silently reslices), so every call
returns normally. -/
noncomputable def ftle_rosenstein_call (s : List (Option ℚ)) (window : ℤ)
    (m tau horizon theiler : ℕ) : Except String (Option ℝ) :=
  .ok (ftle_rosenstein s window m tau horizon theiler)

/-- The computation raised an error instead of producing a value. -/
def raisesError {α : Type} : Except String α → Prop
  | .error _ => True
  | .ok _ => False

/-- Claim C8 as stated: EVERY operation of the core accepting a
window/span/win parameter raises a configuration error on every
non-positive value — including `ftle_rosenstein`, which accepts
`window`. -/
def NonpositiveParamAlwaysRaises : Prop :=
  ∀ (w : ℤ), w ≤ 0 →
    ∀ (s x : List (Option ℚ)) (sq : List ℚ)
      (m tau horizon theiler : ℕ) (eps : ℚ),
      raisesError (rolling_permutation_entropy s w m tau) ∧
      raisesError (ema sq w) ∧
      raisesError (minmax_causal x w eps) ∧
      raisesError (ftle_rosenstein_call s w m tau horizon theiler)

/-- Claim C8 counterexample: `ftle_rosenstein` called with `window = 0`
on `[1, 2, 3]` raises nothing — it returns normally (NaN, from the
too-few-vectors guard), because the source never validates `window`. -/
theorem C8_counterexample : ¬ NonpositiveParamAlwaysRaises := by
  intro h
  exact (h 0 le_rfl [some 1, some 2, some 3] [] [] 3 1 10 2 1).2.2.2

/-- Claim C8, amended: the operations that do validate their size
parameter (`rolling_permutation_entropy` with `window`, `ema` with
`span`, `minmax_causal` with `win`) raise a configuration error
immediately, before producing any output, for every non-positive value —
but `ftle_rosenstein`, which also accepts `window`, performs no such
validation and returns normally. -/
theorem C8_nonpositive_param_validation (w : ℤ) (hw : w ≤ 0)
    (s x : List (Option ℚ)) (sq : List ℚ)
    (m tau horizon theiler : ℕ) (eps : ℚ) :
    raisesError (rolling_permutation_entropy s w m tau) ∧
    raisesError (ema sq w) ∧
    raisesError (minmax_causal x w eps) ∧
    ¬ raisesError (ftle_rosenstein_call s w m tau horizon theiler) := by
  refine ⟨?_, ?_, ?_, ?_⟩
  · rw [rolling_permutation_entropy, if_pos hw]
    trivial
  · rw [ema, if_pos hw]
    trivial
  · rw [minmax_causal, if_pos hw]
    trivial
  · rw [ftle_rosenstein_call]
    intro hh
    exact hh

/-- Claim C8 witness: the amended validation statement at `w = 0` with
concrete series. -/
theorem C8_nonpositive_param_validation_witness :
    (0 : ℤ) ≤ 0 ∧
    (raisesError (rolling_permutation_entropy [some 1, some 2] 0 3 1) ∧
      raisesError (ema [1, 2] 0) ∧
      raisesError (minmax_causal [some 1, some 2] 0 1) ∧
      ¬ raisesError (ftle_rosenstein_call [some 1, some 2] 0 3 1 10 2)) :=
  ⟨le_rfl, C8_nonpositive_param_validation 0 le_rfl [some 1, some 2]
    [some 1, some 2] [1, 2] 3 1 10 2 1⟩
